import Mathlib

/-!
Verification development for the seizure prediction dataset pipeline
(src/python/dataset.py and src/python/fileutils.py), shallow-embedded in Lean.
Rows of a labelled dataset table are modelled as pairs of a segment id and a
boolean Preictal label; rational numbers stand in for the Python floats that
appear in ratio computations.
-/

/-- A row of a labelled dataset table: segment id and Preictal label. -/
abbrev Row : Type := ℕ × Bool

/-- Fold count computed by split_dataset (dataset.py line 224):
k equals int(np.floor(1/(1 - training_ratio))).  At training_ratio = 1 the
Python expression divides by zero and the call raises, modelled as none. -/
def foldCount (r : ℚ) : Option ℤ :=
  if r = 1 then none else some ⌊1 / (1 - r)⌋

/-- Failure modes of split_dataset that are observable from its fold count
computation: the zero division at ratio 1, and the rejection of any fold
count below 2 by the wrapped sklearn StratifiedKFold constructor. -/
inductive SplitError : Type where
  | divisionByZero : SplitError
  | badFoldCount : ℤ → SplitError
deriving DecidableEq

/-- The fold-count validation split_dataset effectively performs: compute k
from the ratio, then construct the cross validator, whose base class raises
whenever the requested number of folds is at most 1. -/
def checkFoldCount (r : ℚ) : Except SplitError ℤ :=
  match foldCount r with
  | none => Except.error SplitError.divisionByZero
  | some k =>
      if k ≤ 1 then Except.error (SplitError.badFoldCount k) else Except.ok k

/-- Claim C6: for every training ratio outside the open interval (0,1) the
dataset splitter fails: either the fold-count expression itself raises
(ratio 1), or the derived fold count is at most 1 and the wrapped stratified
K-fold constructor rejects it.  The failure surfaces during the
split_dataset call and is never silently defaulted. -/
theorem invalid_ratio_rejected (r : ℚ) (h : r ≤ 0 ∨ 1 ≤ r) :
    ∃ e, checkFoldCount r = Except.error e := by
  rcases h with h | h
  · have hr1 : r ≠ 1 := by intro hr; rw [hr] at h; norm_num at h
    have hpos : (0:ℚ) < 1 - r := by linarith
    have hle : 1 / (1 - r) ≤ 1 := by
      rw [div_le_one hpos]; linarith
    have hfl : ⌊(1:ℚ) / (1 - r)⌋ ≤ 1 := by
      calc ⌊(1:ℚ) / (1 - r)⌋ ≤ ⌊(1:ℚ)⌋ := Int.floor_le_floor hle
      _ = 1 := by norm_num
    refine ⟨SplitError.badFoldCount ⌊(1:ℚ) / (1 - r)⌋, ?_⟩
    simp only [checkFoldCount, foldCount, hr1, if_false, ite_false]
    rw [if_pos hfl]
  · by_cases hr1 : r = 1
    · exact ⟨SplitError.divisionByZero, by simp [checkFoldCount, foldCount, hr1]⟩
    · have hlt : (1:ℚ) < r := lt_of_le_of_ne h (Ne.symm hr1)
      have hneg : 1 / (1 - r) < 0 := div_neg_of_pos_of_neg one_pos (by linarith)
      have hfl : ⌊(1:ℚ) / (1 - r)⌋ ≤ 1 := by
        have h0 : ⌊(1:ℚ) / (1 - r)⌋ ≤ ⌊(0:ℚ)⌋ := Int.floor_le_floor hneg.le
        rw [Int.floor_zero] at h0; omega
      refine ⟨SplitError.badFoldCount ⌊(1:ℚ) / (1 - r)⌋, ?_⟩
      simp only [checkFoldCount, foldCount, hr1, if_false, ite_false]
      rw [if_pos hfl]

/-- Witness for C6 at the concrete out-of-range ratio 2. -/
theorem invalid_ratio_rejected_witness :
    ((2:ℚ) ≤ 0 ∨ 1 ≤ (2:ℚ)) ∧ ∃ e, checkFoldCount 2 = Except.error e :=
  ⟨Or.inr (by norm_num), invalid_ratio_rejected 2 (Or.inr (by norm_num))⟩

/-- Claim C8: the splitter derives the fold count as the floor of
1/(1 - training_ratio); in particular ratio 8/10 gives k = 5, ratio 75/100
gives k = 4 and ratio 7/10 gives k = 3 (all accepted by the ensuing check). -/
theorem fold_count_formula :
    (∀ r : ℚ, r ≠ 1 → foldCount r = some ⌊1 / (1 - r)⌋) ∧
    foldCount (8/10) = some 5 ∧ foldCount (75/100) = some 4 ∧
    foldCount (7/10) = some 3 ∧
    checkFoldCount (8/10) = Except.ok 5 ∧
    checkFoldCount (75/100) = Except.ok 4 ∧
    checkFoldCount (7/10) = Except.ok 3 := by
  have h8 : foldCount (8/10) = some 5 := by
    rw [foldCount, if_neg (by norm_num)]
    norm_num
  have h75 : foldCount (75/100) = some 4 := by
    rw [foldCount, if_neg (by norm_num)]
    norm_num
  have h7 : foldCount (7/10) = some 3 := by
    rw [foldCount, if_neg (by norm_num)]
    norm_num
  refine ⟨fun r hr => by simp [foldCount, hr], h8, h75, h7, ?_, ?_, ?_⟩
  · rw [checkFoldCount, h8]; norm_num
  · rw [checkFoldCount, h75]; norm_num
  · rw [checkFoldCount, h7]; norm_num

/-- Witness for the quantified part of C8 at the concrete ratio 1/2. -/
theorem fold_count_formula_witness :
    ((1:ℚ)/2 ≠ 1) ∧ foldCount (1/2) = some ⌊1 / (1 - (1:ℚ)/2)⌋ :=
  ⟨by norm_num, fold_count_formula.1 (1/2) (by norm_num)⟩

/-- Fill-loop fact: folding an index-wise set over a range rewrites an
initial buffer of sufficient length into the list of generated rows. -/
theorem foldl_set_range {α : Type} (f : ℕ → α) :
    ∀ (n : ℕ) (init : List α), n ≤ init.length →
      (List.range n).foldl (fun d i => d.set i (f i)) init =
        (List.range n).map f ++ init.drop n := by
  intro n
  induction n with
  | zero => intro init _; simp
  | succ n ih =>
    intro init hlen
    have hn : n ≤ init.length := Nat.le_of_succ_le hlen
    have hlt : n < init.length := hlen
    rw [List.range_succ, List.foldl_append, ih init hn]
    simp only [List.foldl_cons, List.foldl_nil, List.map_append, List.map_cons,
      List.map_nil]
    have hml : ((List.range n).map f).length ≤ n := by simp
    rw [List.set_append_right _ _ hml]
    have h0 : n - ((List.range n).map f).length = 0 := by simp
    rw [h0, List.drop_eq_getElem_cons hlt, List.append_assoc]
    rfl

/-- Sliding frame construction (dataset.py, extend_data_with_sliding_frames):
from n windows of width w it allocates a zero buffer of
n - (frame_length - 1) rows and fills row i with the concatenation of
windows i..i+frame_length-1.  When n - (frame_length - 1) is negative the
numpy zeros allocation raises (negative dimensions are not allowed),
modelled as none. -/
def extend_data_with_sliding_frames (w : ℕ) (src : List (List ℚ)) (L : ℕ) :
    Option (List (List ℚ)) :=
  if src.length + 1 < L then none
  else
    some ((List.range (src.length + 1 - L)).foldl
      (fun d i => d.set i (((src.drop i).take L).flatten))
      (List.replicate (src.length + 1 - L) (List.replicate (w * L) 0)))

/-- Counterexample to claim C3 as stated: on 1 window with the default frame
length 12 the claim asks for max(1 - 12 + 1, 0) = 0 frames, but the code
raises instead of yielding an empty frame array (numpy rejects the negative
dimension 1 - 11), so no frame table is produced at all. -/
theorem sliding_frames_negative_dim :
    extend_data_with_sliding_frames 2 [[1, 2]] 12 = none ∧
    max ((1:ℤ) - 12 + 1) 0 = 0 := by
  constructor
  · simp [extend_data_with_sliding_frames]
  · decide

/-- Claim C3, amended: when n + 1 is at least the frame length L (so the
buffer dimension n - L + 1 is nonnegative), sliding-frame construction on n
windows yields exactly n - L + 1 frames and frame i is the concatenation of
windows i..i+L-1; for n + 1 < L the construction fails instead of yielding
an empty result. -/
theorem sliding_frames_count_content (w L : ℕ) (src : List (List ℚ))
    (hw : ∀ row ∈ src, row.length = w) (hL : L ≤ src.length + 1) :
    ∃ out, extend_data_with_sliding_frames w src L = some out ∧
      out.length = src.length + 1 - L ∧
      ∀ i, i < src.length + 1 - L →
        out[i]? = some (((src.drop i).take L).flatten) := by
  have hcond : ¬ (src.length + 1 < L) := not_lt.mpr hL
  refine ⟨_, by rw [extend_data_with_sliding_frames, if_neg hcond], ?_, ?_⟩
  · rw [foldl_set_range _ _ _ (by simp)]
    simp
  · intro i hi
    rw [foldl_set_range _ _ _ (by simp)]
    rw [List.drop_of_length_le (by simp), List.append_nil, List.getElem?_map,
      List.getElem?_range hi]
    rfl

/-- Witness for C3 (amended) on a concrete 3-window table with frame
length 2. -/
theorem sliding_frames_count_content_witness :
    (∀ row ∈ [[(1:ℚ)], [2], [3]], row.length = 1) ∧ 2 ≤ 3 + 1 ∧
    ∃ out, extend_data_with_sliding_frames 1 [[(1:ℚ)], [2], [3]] 2 = some out ∧
      out.length = 3 + 1 - 2 ∧
      ∀ i, i < 3 + 1 - 2 →
        out[i]? = some ((([[(1:ℚ)], [2], [3]].drop i).take 2).flatten) :=
  ⟨by decide, by decide,
    sliding_frames_count_content 1 2 [[(1:ℚ)], [2], [3]] (by decide) (by decide)⟩

/-- Error outcomes of reshape_frames: the explicit shape check raised as a
ValueError in the source, and the ZeroDivisionError that n_windows %
frame_length raises in Python when frame_length is 0. -/
inductive ReshapeError : Type where
  | shapeMismatch : ℕ → ℕ → ReshapeError
  | zeroModulus : ReshapeError
deriving DecidableEq

/-- Fixed frame construction (dataset.py, reshape_frames): a table of
n_windows rows of width w is regrouped by a row-major reshape of the
flattened values into n_windows / frame_length frames of width
w * frame_length. -/
def reshape_frames (w : ℕ) (df : List (List ℚ)) (L : ℕ) :
    Except ReshapeError (List (List ℚ)) :=
  if L = 0 then Except.error ReshapeError.zeroModulus
  else if df.length % L ≠ 0 then
    Except.error (ReshapeError.shapeMismatch df.length L)
  else Except.ok ((List.range (df.length / L)).map
    (fun j => (df.flatten.drop (j * (w * L))).take (w * L)))

/-- Dropping a multiple of the row width from a flattened rectangular table
drops whole rows. -/
theorem flatten_drop_rect {w : ℕ} :
    ∀ (k : ℕ) (df : List (List ℚ)), (∀ row ∈ df, row.length = w) →
      df.flatten.drop (k * w) = (df.drop k).flatten := by
  intro k
  induction k with
  | zero => intro df _; simp
  | succ k ih =>
    intro df hw
    cases df with
    | nil => simp
    | cons r rs =>
      have hr : r.length = w := hw r (by simp)
      have hrs : ∀ row ∈ rs, row.length = w := fun row h => hw row (by simp [h])
      rw [List.flatten_cons, Nat.succ_mul, Nat.add_comm]
      nth_rewrite 1 [← hr]
      rw [List.drop_append, ih rs hrs, List.drop_succ_cons]

/-- Taking a multiple of the row width from a flattened rectangular table
takes whole rows. -/
theorem flatten_take_rect {w : ℕ} :
    ∀ (k : ℕ) (df : List (List ℚ)), (∀ row ∈ df, row.length = w) →
      df.flatten.take (k * w) = (df.take k).flatten := by
  intro k
  induction k with
  | zero => intro df _; simp
  | succ k ih =>
    intro df hw
    cases df with
    | nil => simp
    | cons r rs =>
      have hr : r.length = w := hw r (by simp)
      have hrs : ∀ row ∈ rs, row.length = w := fun row h => hw row (by simp [h])
      rw [List.flatten_cons, Nat.succ_mul, Nat.add_comm]
      nth_rewrite 1 [← hr]
      rw [List.take_append, ih rs hrs, List.take_succ_cons, List.flatten_cons]

/-- Counterexample to claim C4 as stated: at frame_length = 0 on a 1-window
table, 0 does not divide 1, so the claim requires a ShapeMismatch failure;
the code instead raises ZeroDivisionError in the expression
n_windows % frame_length, before the shape check is reached. -/
theorem reshape_frames_zero_divergence :
    reshape_frames 1 [[(5:ℚ)]] 0 = Except.error ReshapeError.zeroModulus ∧
    ¬ (0 ∣ 1) ∧
    ReshapeError.zeroModulus ≠ ReshapeError.shapeMismatch 1 0 := by
  refine ⟨rfl, by decide, by decide⟩

/-- Claim C4, amended to positive frame lengths: for frame_length ≥ 1,
reshape_frames fails with ShapeMismatch exactly when frame_length does not
divide the window count; on divisible input it returns n_windows /
frame_length frames, frame j being the concatenation of the j-th contiguous
non-overlapping group of frame_length windows.  frame_length = 0 instead
raises a division error in the modulus expression itself. -/
theorem reshape_frames_spec (w L : ℕ) (df : List (List ℚ)) (hL : 0 < L)
    (hw : ∀ row ∈ df, row.length = w) :
    ((∃ out, reshape_frames w df L = Except.ok out) ↔ L ∣ df.length) ∧
    (reshape_frames w df L = Except.error (ReshapeError.shapeMismatch df.length L) ↔
      ¬ L ∣ df.length) ∧
    ∀ out, reshape_frames w df L = Except.ok out →
      out.length = df.length / L ∧
      ∀ j, j < df.length / L →
        out[j]? = some (((df.drop (j * L)).take L).flatten) := by
  have hL0 : L ≠ 0 := Nat.pos_iff_ne_zero.mp hL
  by_cases hd : df.length % L = 0
  · have hdvd : L ∣ df.length := Nat.dvd_of_mod_eq_zero hd
    have hok : reshape_frames w df L = Except.ok ((List.range (df.length / L)).map
        (fun j => (df.flatten.drop (j * (w * L))).take (w * L))) := by
      rw [reshape_frames, if_neg hL0, if_neg (by simp [hd])]
    refine ⟨by simp [hok, hdvd], by simp [hok, hdvd], ?_⟩
    intro out hout
    rw [hok] at hout
    injection hout with hout
    subst hout
    constructor
    · simp
    · intro j hj
      rw [List.getElem?_map, List.getElem?_range hj]
      have h1 : j * (w * L) = (j * L) * w := by ring
      have h2 : w * L = L * w := Nat.mul_comm w L
      have hdw : ∀ row ∈ df.drop (j * L), row.length = w :=
        fun row h => hw row (List.mem_of_mem_drop h)
      simp only [Option.map_some']
      rw [h1, h2, flatten_drop_rect (j * L) df hw, flatten_take_rect L _ hdw]
  · have hndvd : ¬ L ∣ df.length := fun hdvd => hd (Nat.dvd_iff_mod_eq_zero.mp hdvd)
    have herr : reshape_frames w df L =
        Except.error (ReshapeError.shapeMismatch df.length L) := by
      rw [reshape_frames, if_neg hL0, if_pos (by simp [hd])]
    refine ⟨?_, by simp [herr, hndvd], ?_⟩
    · constructor
      · intro hex
        rcases hex with ⟨out, hout⟩
        rw [herr] at hout
        cases hout
      · intro hdvd
        exact absurd hdvd hndvd
    · intro out hout
      rw [herr] at hout
      cases hout

/-- Witness for C4 (amended) on a concrete 4-window table with frame
length 2. -/
theorem reshape_frames_spec_witness :
    0 < 2 ∧ (∀ row ∈ [[(1:ℚ)], [2], [3], [4]], row.length = 1) ∧
    (((∃ out, reshape_frames 1 [[(1:ℚ)], [2], [3], [4]] 2 = Except.ok out) ↔ 2 ∣ 4) ∧
     (reshape_frames 1 [[(1:ℚ)], [2], [3], [4]] 2 =
        Except.error (ReshapeError.shapeMismatch 4 2) ↔ ¬ 2 ∣ 4) ∧
     ∀ out, reshape_frames 1 [[(1:ℚ)], [2], [3], [4]] 2 = Except.ok out →
       out.length = 2 ∧
       ∀ j, j < 2 →
         out[j]? = some ((([[(1:ℚ)], [2], [3], [4]].drop (j * 2)).take 2).flatten)) :=
  ⟨by decide, by decide,
    reshape_frames_spec 1 2 [[(1:ℚ)], [2], [3], [4]] (by decide) (by decide)⟩

/-- The three data classes loaded by load_data_frames. -/
inductive DataClass : Type where
  | preictal : DataClass
  | interictal : DataClass
  | test : DataClass
deriving DecidableEq

/-- One load_feature_files invocation as issued by load_data_frames: the
class being loaded, the sliding_frames flag it receives, and the
frame_length it receives. -/
structure LoadCall where
  dataClass : DataClass
  sliding : Bool
  frameLength : ℕ
deriving DecidableEq

/-- The three load_feature_files invocations made by load_data_frames
(dataset.py lines 300-312): the two training classes receive the
caller-supplied sliding_frames flag, the test class always receives
sliding_frames = False, and frame_length is forwarded unchanged to all
three calls (its load_feature_files default is 12). -/
def load_data_frames_calls (slidingFrames : Bool) (frameLength : ℕ) :
    List LoadCall :=
  [⟨DataClass.preictal, slidingFrames, frameLength⟩,
   ⟨DataClass.interictal, slidingFrames, frameLength⟩,
   ⟨DataClass.test, false, frameLength⟩]

/-- Modelled from the spec: features_combined.load is not under src.  Per
spec section 4.1 and the reshape helpers in dataset.py, a load with frame
length L concatenates L consecutive windows into each produced frame, in
both the fixed and the sliding mode, so every produced frame spans
frameLength windows. -/
def windowsPerFrame (c : LoadCall) : ℕ := c.frameLength

/-- Counterexample to claim C7 as stated: with sliding_frames = True and the
default frame_length 12, the test-class invocation does receive
sliding_frames = False, but its frames still span 12 windows, not one frame
per window; frame_length is not forced to a one-window layout for the test
class. -/
theorem test_frames_not_single_window :
    (load_data_frames_calls true 12)[2]? =
      some ⟨DataClass.test, false, 12⟩ ∧
    windowsPerFrame ⟨DataClass.test, false, 12⟩ ≠ 1 := by
  refine ⟨rfl, by decide⟩

/-- Claim C7, amended: sliding-frame construction is never applied to the
test class: in every invocation of load_data_frames, the call loading the
test class passes sliding_frames = False, regardless of the sliding_frames
setting used for the training classes (frame_length, however, is forwarded
unchanged). -/
theorem test_class_never_sliding (sf : Bool) (fl : ℕ) :
    ∀ c ∈ load_data_frames_calls sf fl,
      c.dataClass = DataClass.test → c.sliding = false := by
  intro c hc hclass
  fin_cases hc
  · exact absurd hclass (by simp)
  · exact absurd hclass (by simp)
  · rfl

/-- Witness for C7 (amended): the concrete test-class call of
load_data_frames with sliding frames requested and frame length 12. -/
theorem test_class_never_sliding_witness :
    (⟨DataClass.test, false, 12⟩ : LoadCall) ∈ load_data_frames_calls true 12 ∧
    (⟨DataClass.test, false, 12⟩ : LoadCall).sliding = false :=
  ⟨by decide,
    test_class_never_sliding true 12 ⟨DataClass.test, false, 12⟩ (by decide) rfl⟩

/-- Values of an assembled feature table, distinguishing NaN and the
infinities so that finiteness and NaN-ness are separate observables, as
with IEEE floats. -/
inductive Val : Type where
  | num : ℚ → Val
  | nan : Val
  | posInf : Val
  | negInf : Val
deriving DecidableEq

/-- np.isnan: true exactly on NaN (infinities are not NaN). -/
def Val.isNaN : Val → Bool
  | Val.nan => true
  | _ => false

/-- np.isfinite: true exactly on ordinary numbers. -/
def Val.isFinite : Val → Bool
  | Val.num _ => true
  | _ => false

/-- The check np.count_nonzero(np.isnan(table)) from rebuild_features. -/
def countNaN (t : List (List Val)) : ℕ := (t.flatten.filter Val.isNaN).length

/-- Linear-interpolation values placed into a gap of k NaN entries strictly
between two observations (pandas yields NaN on gaps whose endpoints are not
both finite numbers). -/
def fillGap (a b : Val) (k : ℕ) : List Val :=
  match a, b with
  | Val.num x, Val.num y =>
      (List.range k).map (fun j => Val.num (x + (y - x) * (j + 1) / (k + 1)))
  | _, _ => List.replicate k Val.nan

/-- Interpolation of the tail of a column after a valid observation a:
interior NaN runs are filled linearly between their surrounding
observations and a trailing NaN run repeats the last observation, matching
pandas Series.interpolate with method linear. -/
def interpAfter (a : Val) (col : List Val) : List Val :=
  match h : col.dropWhile Val.isNaN with
  | [] => List.replicate (col.takeWhile Val.isNaN).length a
  | b :: rest =>
      fillGap a b (col.takeWhile Val.isNaN).length ++ b :: interpAfter b rest
termination_by col.length
decreasing_by
  have hs : (col.dropWhile Val.isNaN).length ≤ col.length :=
    (List.dropWhile_sublist Val.isNaN).length_le
  rw [h] at hs
  simp only [List.length_cons] at hs
  omega

/-- Columnwise linear interpolation: leading NaN entries stay NaN, the rest
of the column is handled by interpAfter from the first observation on. -/
def interpColumn (col : List Val) : List Val :=
  match col.dropWhile Val.isNaN with
  | [] => col
  | a :: rest =>
      List.replicate (col.takeWhile Val.isNaN).length Val.nan ++
        a :: interpAfter a rest

/-- DataFrame.interpolate(method=linear): interpolate every column along
the row axis. -/
def interpolateLinear (t : List (List Val)) : List (List Val) :=
  (t.transpose.map interpColumn).transpose

/-- The NaN repair step at the end of rebuild_features (dataset.py lines
404-406): if np.isnan finds any NaN, log a warning (the boolean component)
and replace the table by its interpolation; otherwise the table passes
through untouched. -/
def nanRepairStep (t : List (List Val)) : Bool × List (List Val) :=
  if countNaN t ≠ 0 then (true, interpolateLinear t) else (false, t)

/-- Counterexample to claim C9 as stated: a table containing +inf has a
non-finite value, so the claim requires the repair to run before the table
is returned; but np.isnan does not flag infinities, so the code skips the
interpolation branch and returns the table untouched. -/
theorem inf_not_repaired :
    nanRepairStep [[Val.posInf]] = (false, [[Val.posInf]]) ∧
    Val.posInf.isFinite = false :=
  ⟨rfl, rfl⟩

/-- Claim C9, amended: the repair branch of rebuild_features runs exactly
when the assembled table contains a NaN value (non-finite but non-NaN
values such as infinities do not trigger it); when it runs the returned
table is the linear interpolation of the input and execution continues,
and when no NaN is present the table is returned unmodified by the repair
step. -/
theorem nan_repair_condition (t : List (List Val)) :
    ((nanRepairStep t).1 = true ↔ ∃ v ∈ t.flatten, v.isNaN = true) ∧
    ((∀ v ∈ t.flatten, v.isNaN = false) → nanRepairStep t = (false, t)) ∧
    ((∃ v ∈ t.flatten, v.isNaN = true) →
      nanRepairStep t = (true, interpolateLinear t)) := by
  have hiff : countNaN t ≠ 0 ↔ ∃ v ∈ t.flatten, v.isNaN = true := by
    constructor
    · intro hne
      rcases List.exists_mem_of_length_pos (Nat.pos_of_ne_zero hne) with ⟨v, hv⟩
      rcases List.mem_filter.mp hv with ⟨hmem, hnan⟩
      exact ⟨v, hmem, hnan⟩
    · rintro ⟨v, hv, hnan⟩
      have : v ∈ t.flatten.filter Val.isNaN := List.mem_filter.mpr ⟨hv, hnan⟩
      have hpos : 0 < countNaN t := List.length_pos.mpr (List.ne_nil_of_mem this)
      omega
  refine ⟨?_, ?_, ?_⟩
  · by_cases hc : countNaN t ≠ 0
    · simp only [nanRepairStep, if_pos hc]
      exact iff_of_true trivial (hiff.mp hc)
    · simp only [nanRepairStep, if_neg hc]
      refine iff_of_false (by simp) (fun hex => hc (hiff.mpr hex))
  · intro hall
    have hc : ¬ countNaN t ≠ 0 := by
      rw [hiff]
      rintro ⟨v, hv, hnan⟩
      rw [hall v hv] at hnan
      cases hnan
    simp [nanRepairStep, hc]
  · intro hex
    simp [nanRepairStep, hiff.mpr hex]

/-- Witness for C9 (amended) on a concrete table containing a NaN. -/
theorem nan_repair_condition_witness :
    (∃ v ∈ ([[Val.num 1, Val.nan]] : List (List Val)).flatten, v.isNaN = true) ∧
    nanRepairStep [[Val.num 1, Val.nan]] =
      (true, interpolateLinear [[Val.num 1, Val.nan]]) :=
  ⟨⟨Val.nan, by decide, rfl⟩,
    (nan_repair_condition [[Val.num 1, Val.nan]]).2.2 ⟨Val.nan, by decide, rfl⟩⟩

/-- The model of DataFrame.loc with a list of index labels: pick out, label
by label, all rows whose key equals that label. -/
def locKey {α : Type} (tbl : List (ℕ × α)) : List ℕ → List (ℕ × α)
  | [] => []
  | s :: rest => tbl.filter (fun p => p.1 == s) ++ locKey tbl rest

/-- Counting a disjunction of pointwise-exclusive predicates adds the
counts. -/
theorem countP_or_of_excl {α : Type} (p q : α → Bool)
    (h : ∀ x, p x = true → q x = false) :
    ∀ l : List α, l.countP (fun x => p x || q x) = l.countP p + l.countP q := by
  intro l
  induction l with
  | nil => simp
  | cons a l ih =>
    by_cases hp : p a = true
    · have hq : q a = false := h a hp
      simp [List.countP_cons, hp, hq, ih]
      omega
    · simp only [Bool.not_eq_true] at hp
      by_cases hq : q a = true
      · simp [List.countP_cons, hp, hq, ih]
        omega
      · simp only [Bool.not_eq_true] at hq
        simp [List.countP_cons, hp, hq, ih]

/-- Membership in a loc selection. -/
theorem mem_locKey {α : Type} (tbl : List (ℕ × α)) (x : ℕ × α) :
    ∀ c : List ℕ, x ∈ locKey tbl c ↔ x ∈ tbl ∧ x.1 ∈ c := by
  intro c
  induction c with
  | nil => simp [locKey]
  | cons s rest ih =>
    simp only [locKey, List.mem_append, List.mem_filter, ih, beq_iff_eq,
      List.mem_cons]
    constructor
    · rintro (⟨hm, he⟩ | ⟨hm, he⟩)
      · exact ⟨hm, Or.inl he⟩
      · exact ⟨hm, Or.inr he⟩
    · rintro ⟨hm, he | he⟩
      · exact Or.inl ⟨hm, he⟩
      · exact Or.inr ⟨hm, he⟩

/-- Length of a loc selection with pairwise distinct labels: every table
row whose key occurs among the labels is picked exactly once. -/
theorem length_locKey {α : Type} (tbl : List (ℕ × α)) :
    ∀ c : List ℕ, c.Nodup →
      (locKey tbl c).length = tbl.countP (fun p => decide (p.1 ∈ c)) := by
  intro c
  induction c with
  | nil => simp [locKey]
  | cons s rest ih =>
    intro hnd
    have hs : s ∉ rest := (List.nodup_cons.mp hnd).1
    have hrest : rest.Nodup := (List.nodup_cons.mp hnd).2
    have hexcl : ∀ x : ℕ × α, (x.1 == s) = true → decide (x.1 ∈ rest) = false := by
      intro x hx
      have hxs : x.1 = s := by simpa using hx
      simp [hxs, hs]
    have hor := countP_or_of_excl (fun p : ℕ × α => p.1 == s)
      (fun p : ℕ × α => decide (p.1 ∈ rest)) hexcl tbl
    have hcong : tbl.countP (fun p => decide (p.1 ∈ s :: rest)) =
        tbl.countP (fun x => (x.1 == s) || decide (x.1 ∈ rest)) := by
      apply List.countP_congr
      intro x _
      by_cases hxs : x.1 = s
      · simp [hxs]
      · by_cases hxr : x.1 ∈ rest <;> simp [List.mem_cons, hxs, hxr]
    have hfl : (tbl.filter (fun p => p.1 == s)).length =
        tbl.countP (fun p => p.1 == s) := (List.countP_eq_length_filter _ _).symm
    rw [locKey, List.length_append, ih hrest, hcong, hor, hfl]

/-- Python int() truncation toward zero on a rational. -/
def pyTrunc (q : ℚ) : ℤ := if 0 ≤ q then ⌊q⌋ else -⌊-q⌋

/-- DataFrame.sortlevel on the segment level: a stable sort of the rows by
segment id. -/
def sortBySegment (df : List Row) : List Row :=
  List.insertionSort (fun a b => a.1 ≤ b.1) df

/-- Segment-level downsampling (dataset.py downsample, do_segment_split
branch): the mean rows-per-segment converts the row budget n_samples into a
segment budget; if that budget is below the number of distinct segments,
keep exactly the segments in choice (the uniform random sample drawn by
random.sample, passed in here as a parameter), otherwise return the table
unchanged.  An empty table divides by zero when computing the mean,
modelled as none. -/
def downsample (df1 : List Row) (nSamples : ℚ) (choice : List ℕ) :
    Option (List Row) :=
  let segs := (df1.map Prod.fst).dedup
  if segs.length = 0 then none
  else
    let samplesPerSegment : ℚ := (df1.length : ℚ) / (segs.length : ℚ)
    let nSegmentSamples : ℤ := pyTrunc (nSamples / samplesPerSegment)
    if nSegmentSamples < (segs.length : ℤ) then some (locKey df1 choice)
    else some df1

/-- merge_interictal_preictal (dataset.py lines 161-171) with its default
segment-level split: sort both class tables by segment, downsample the
interictal table to a row budget of len(preictal) * downsample_ratio,
concatenate interictal with preictal, and re-sort by segment. -/
def merge_interictal_preictal (inter pre : List Row) (doDownsample : Bool)
    (q : ℚ) (choice : List ℕ) : Option (List Row) :=
  match (if doDownsample
         then downsample (sortBySegment inter) ((pre.length : ℚ) * q) choice
         else some (sortBySegment inter)) with
  | none => none
  | some i2 => some (sortBySegment (i2 ++ sortBySegment pre))

/-- A successful downsample returns either the selected segments or the
table unchanged. -/
theorem downsample_some {df : List Row} {n : ℚ} {c : List ℕ}
    {out : List Row} (h : downsample df n c = some out) :
    out = locKey df c ∨ out = df := by
  simp only [downsample] at h
  split at h
  · cases h
  · split at h
    · exact Or.inl (Option.some.inj h).symm
    · exact Or.inr (Option.some.inj h).symm

/-- Counterexample to claim C5 as stated: interictal has a single row,
preictal has 10, ratio 2.  The merge only ever downsamples the interictal
table; here the budget 20 exceeds the interictal size, so nothing changes,
and the larger class (preictal, 10 rows) ends far above ratio times the
smaller class (2 x 1 = 2 rows): the bound is not enforced when preictal is
the larger class. -/
theorem merge_downsample_bound_fails :
    ∃ out, merge_interictal_preictal [(0, false)]
        [(1, true), (1, true), (1, true)] true 2 [] = some out ∧
      out.countP (fun r => r.2) = 3 ∧ out.countP (fun r => !r.2) = 1 ∧
      ¬ (max (out.countP (fun r => r.2)) (out.countP (fun r => !r.2)) ≤
          2 * min (out.countP (fun r => r.2)) (out.countP (fun r => !r.2))) := by
  refine ⟨[(0, false), (1, true), (1, true), (1, true)], ?_, by decide, by decide,
    by decide⟩
  norm_num [merge_interictal_preictal, downsample, pyTrunc, sortBySegment,
    locKey, List.insertionSort, List.orderedInsert]

/-- Claim C5, amended: with downsampling enabled the merge downsamples only
the interictal table (toward the budget downsample_ratio * len(preictal)).
Downsampling never increases either class's row count: in the merged
table the preictal row count is exactly the original preictal row count,
and the interictal row count is at most the original interictal row count.
The bound len(larger) <= ratio * len(smaller) is not enforced in general. -/
theorem downsample_never_increases (inter pre : List Row) (q : ℚ)
    (choice : List ℕ) (hch : choice.Nodup)
    (hi : ∀ r ∈ inter, r.2 = false) (hp : ∀ r ∈ pre, r.2 = true) :
    ∀ out, merge_interictal_preictal inter pre true q choice = some out →
      out.countP (fun r => r.2) = pre.length ∧
      out.countP (fun r => !r.2) ≤ inter.length := by
  intro out hout
  have hpermI : List.Perm (sortBySegment inter) inter := by
    unfold sortBySegment
    exact List.perm_insertionSort _ _
  have hpermP : List.Perm (sortBySegment pre) pre := by
    unfold sortBySegment
    exact List.perm_insertionSort _ _
  simp only [merge_interictal_preictal, if_pos] at hout
  cases hds : downsample (sortBySegment inter) ((pre.length : ℚ) * q) choice with
  | none => rw [hds] at hout; cases hout
  | some i2 =>
    rw [hds] at hout
    have hout2 : out = sortBySegment (i2 ++ sortBySegment pre) :=
      (Option.some.inj hout).symm
    have hperm : List.Perm out (i2 ++ sortBySegment pre) := by
      rw [hout2]
      exact List.perm_insertionSort _ _
    have hi2mem : ∀ r ∈ i2, r.2 = false := by
      intro r hr
      rcases downsample_some hds with he | he
      · have := (mem_locKey _ r choice).mp (he ▸ hr)
        exact hi r (hpermI.mem_iff.mp this.1)
      · exact hi r (hpermI.mem_iff.mp (he ▸ hr))
    have hi2len : i2.length ≤ inter.length := by
      rcases downsample_some hds with he | he
      · rw [he, length_locKey _ choice hch]
        calc (sortBySegment inter).countP (fun p => decide (p.1 ∈ choice)) ≤
            (sortBySegment inter).length := List.countP_le_length _
        _ = inter.length := hpermI.length_eq
      · rw [he]
        exact le_of_eq hpermI.length_eq
    constructor
    · rw [hperm.countP_eq, List.countP_append]
      have h1 : i2.countP (fun r => r.2) = 0 := by
        rw [List.countP_eq_zero]
        intro r hr
        simp [hi2mem r hr]
      have h2 : (sortBySegment pre).countP (fun r => r.2) =
          (sortBySegment pre).length := by
        rw [List.countP_eq_length]
        intro r hr
        simp [hp r (hpermP.mem_iff.mp hr)]
      rw [h1, h2, hpermP.length_eq, Nat.zero_add]
    · rw [hperm.countP_eq, List.countP_append]
      have h1 : (sortBySegment pre).countP (fun r => !r.2) = 0 := by
        rw [List.countP_eq_zero]
        intro r hr
        simp [hp r (hpermP.mem_iff.mp hr)]
      have h2 : i2.countP (fun r => !r.2) ≤ i2.length := List.countP_le_length _
      omega
    
/-- Witness for C5 (amended) on concrete interictal and preictal tables
where the downsampling branch actually selects segments. -/
theorem downsample_never_increases_witness :
    ([0] : List ℕ).Nodup ∧
    (∀ r ∈ ([(0, false), (0, false), (1, false)] : List Row), r.2 = false) ∧
    (∀ r ∈ ([(2, true)] : List Row), r.2 = true) ∧
    (([(0, false), (0, false), (2, true)] : List Row).countP (fun r => r.2) =
        ([(2, true)] : List Row).length ∧
      ([(0, false), (0, false), (2, true)] : List Row).countP (fun r => !r.2) ≤
        ([(0, false), (0, false), (1, false)] : List Row).length) :=
  ⟨by decide, by decide, by decide,
    downsample_never_increases [(0, false), (0, false), (1, false)] [(2, true)]
      2 [0] (by decide) (by decide) (by decide)
      [(0, false), (0, false), (2, true)]
      (by norm_num [merge_interictal_preictal, downsample, pyTrunc,
        sortBySegment, locKey, List.insertionSort, List.orderedInsert])⟩

/-- The sorted list of distinct segment ids of a table: the index of the
per-segment series that SegmentCrossValidator builds with
groupby(level=segment) (pandas groupby sorts its keys). -/
def uniqueSegments (df : List Row) : List ℕ :=
  List.insertionSort (· ≤ ·) (df.map Prod.fst).dedup

/-- The per-segment class label: for a distinct segment id, the first label
stored for it in the table (groupby .first()); segments are assumed
class-homogeneous but this is not enforced. -/
def segmentLabel (df : List Row) (s : ℕ) : Option Bool :=
  (df.find? (fun r => r.1 == s)).map Prod.snd

/-- Rows of the table tagged with their positional index, mirroring the
all_segments frame whose appended index level i enumerates the rows. -/
def enumRows : List Row → ℕ → List (ℕ × ℕ)
  | [], _ => []
  | r :: rs, i => (r.1, i) :: enumRows rs (i + 1)

/-- The all_segments frame of SegmentCrossValidator: every row's segment id
paired with its position in the dataframe. -/
def all_segments (df : List Row) : List (ℕ × ℕ) := enumRows df 0

/-- The segment names self.segments[indices].index selected by a list of
positions into the per-segment series. -/
def segmentsAt (df : List Row) (idxs : List ℕ) : List ℕ :=
  idxs.filterMap (fun i => (uniqueSegments df)[i]?)

/-- Row positions of all rows whose segment id is in the given list:
all_segments.loc[segments].index.get_level_values(i). -/
def foldRowIndices (df : List Row) (segs : List ℕ) : List ℕ :=
  (locKey (all_segments df) segs).map Prod.snd

/-- One step of SegmentCrossValidator.__iter__, translating one base fold
of segment-series positions into a pair of row-position lists. -/
def scvFold (df : List Row) (f : List ℕ × List ℕ) : List ℕ × List ℕ :=
  (foldRowIndices df (segmentsAt df f.1),
   foldRowIndices df (segmentsAt df f.2))

/-- SegmentCrossValidator.__iter__: translate every fold yielded by the
wrapped base cross validator. -/
def scvIter (df : List Row) (folds : List (List ℕ × List ℕ)) :
    List (List ℕ × List ℕ) :=
  folds.map (scvFold df)

/-- SegmentCrossValidator.__len__, which returns len(self.cv): the number
of folds of the wrapped base cross validator. -/
def scvLen (folds : List (List ℕ × List ℕ)) : ℕ := folds.length

/-- The documented contract of one fold produced by the wrapped sklearn
StratifiedKFold generator over m items: train and test positions are
duplicate-free, in bounds, disjoint, and jointly exhaustive (the training
side is the complement of the held-out fold). -/
abbrev ValidFold (m : ℕ) (f : List ℕ × List ℕ) : Prop :=
  f.1.Nodup ∧ f.2.Nodup ∧ (∀ i ∈ f.1, i < m) ∧ (∀ i ∈ f.2, i < m) ∧
    (∀ i ∈ f.1, i ∉ f.2) ∧ (∀ i, i < m → i ∈ f.1 ∨ i ∈ f.2)

/-- The contract of the whole wrapped StratifiedKFold generator: every fold
it yields satisfies ValidFold. -/
abbrev ValidKFold (m : ℕ) (folds : List (List ℕ × List ℕ)) : Prop :=
  ∀ f ∈ folds, ValidFold m f

theorem nodup_uniqueSegments (df : List Row) : (uniqueSegments df).Nodup :=
  ((List.perm_insertionSort _ _).nodup_iff).mpr (List.nodup_dedup _)

theorem mem_uniqueSegments (df : List Row) (s : ℕ) :
    s ∈ uniqueSegments df ↔ s ∈ df.map Prod.fst := by
  unfold uniqueSegments
  rw [List.Perm.mem_iff (List.perm_insertionSort _ _), List.mem_dedup]

theorem enumRows_length : ∀ (l : List Row) (k : ℕ),
    (enumRows l k).length = l.length := by
  intro l
  induction l with
  | nil => intro k; rfl
  | cons r rs ih => intro k; simp [enumRows, ih]

theorem enumRows_snd_bound : ∀ (l : List Row) (k : ℕ) (p : ℕ × ℕ),
    p ∈ enumRows l k → k ≤ p.2 ∧ p.2 < k + l.length := by
  intro l
  induction l with
  | nil => intro k p hp; cases hp
  | cons r rs ih =>
    intro k p hp
    rcases List.mem_cons.mp hp with h | h
    · subst h; simp
    · have := ih (k + 1) p h
      constructor <;> [omega; (simp only [List.length_cons]; omega)]

theorem enumRows_fst_mem : ∀ (l : List Row) (k : ℕ) (p : ℕ × ℕ),
    p ∈ enumRows l k → p.1 ∈ l.map Prod.fst := by
  intro l
  induction l with
  | nil => intro k p hp; cases hp
  | cons r rs ih =>
    intro k p hp
    rcases List.mem_cons.mp hp with h | h
    · subst h; simp
    · exact List.mem_cons.mpr (Or.inr (ih (k + 1) p h))

theorem enumRows_functional : ∀ (l : List Row) (k : ℕ) (p q : ℕ × ℕ),
    p ∈ enumRows l k → q ∈ enumRows l k → p.2 = q.2 → p.1 = q.1 := by
  intro l
  induction l with
  | nil => intro k p q hp; cases hp
  | cons r rs ih =>
    intro k p q hp hq heq
    rcases List.mem_cons.mp hp with h1 | h1 <;>
      rcases List.mem_cons.mp hq with h2 | h2
    · rw [h1, h2]
    · exfalso
      have := (enumRows_snd_bound rs (k + 1) q h2).1
      rw [h1] at heq
      simp at heq
      omega
    · exfalso
      have := (enumRows_snd_bound rs (k + 1) p h1).1
      rw [h2] at heq
      simp at heq
      omega
    · exact ih (k + 1) p q h1 h2 heq

theorem nodup_segmentsAt (df : List Row) (idxs : List ℕ) (h : idxs.Nodup) :
    (segmentsAt df idxs).Nodup := by
  apply h.filterMap
  intro a b s ha hb
  rw [Option.mem_def] at ha hb
  have hlt : a < (uniqueSegments df).length := (List.getElem?_eq_some.mp ha).1
  exact List.getElem?_inj hlt (nodup_uniqueSegments df) (ha.trans hb.symm)

theorem segmentsAt_disjoint (df : List Row) (tr te : List ℕ)
    (hdis : ∀ i ∈ tr, i ∉ te) :
    ∀ s ∈ segmentsAt df tr, s ∉ segmentsAt df te := by
  intro s hstr hste
  rcases List.mem_filterMap.mp hstr with ⟨i, hi, hus⟩
  rcases List.mem_filterMap.mp hste with ⟨j, hj, hus2⟩
  have hlt : i < (uniqueSegments df).length := (List.getElem?_eq_some.mp hus).1
  have hij : i = j :=
    List.getElem?_inj hlt (nodup_uniqueSegments df) (hus.trans hus2.symm)
  exact hdis i hi (hij ▸ hj)

theorem mem_foldRowIndices (df : List Row) (segs : List ℕ) (i : ℕ) :
    i ∈ foldRowIndices df segs ↔
      ∃ p, p ∈ all_segments df ∧ p.1 ∈ segs ∧ p.2 = i := by
  simp only [foldRowIndices, List.mem_map]
  constructor
  · rintro ⟨p, hp, hpi⟩
    have := (mem_locKey _ p segs).mp hp
    exact ⟨p, this.1, this.2, hpi⟩
  · rintro ⟨p, hp, hps, hpi⟩
    exact ⟨p, (mem_locKey _ p segs).mpr ⟨hp, hps⟩, hpi⟩

theorem foldRowIndices_disjoint (df : List Row) (a b : List ℕ)
    (hab : ∀ s ∈ a, s ∉ b) :
    ∀ i ∈ foldRowIndices df a, i ∉ foldRowIndices df b := by
  intro i hia hib
  rcases (mem_foldRowIndices df a i).mp hia with ⟨p, hp, hpa, hpi⟩
  rcases (mem_foldRowIndices df b i).mp hib with ⟨q, hq, hqb, hqi⟩
  have hpq : p.1 = q.1 :=
    enumRows_functional df 0 p q hp hq (by rw [hpi, hqi])
  exact hab p.1 hpa (hpq ▸ hqb)

/-- Counting two pointwise-exclusive, jointly exhaustive predicates over a
list accounts for every element exactly once. -/
theorem countP_partition {α : Type} (p q : α → Bool)
    (hx : ∀ x, p x = true → q x = false) :
    ∀ l : List α, (∀ x ∈ l, p x = true ∨ q x = true) →
      l.countP p + l.countP q = l.length := by
  intro l
  induction l with
  | nil => intro _; rfl
  | cons a l ih =>
    intro hcov
    have hl := ih (fun x hxl => hcov x (List.mem_cons.mpr (Or.inr hxl)))
    rcases hcov a (List.mem_cons.mpr (Or.inl rfl)) with ha | ha
    · have hqa := hx a ha
      simp [List.countP_cons, ha, hqa]
      omega
    · by_cases hpa : p a = true
      · simp [List.countP_cons, hpa, hx a hpa]
        omega
      · simp only [Bool.not_eq_true] at hpa
        simp [List.countP_cons, hpa, ha]
        omega

/-- dataframe.iloc over a list of row positions. -/
def iloc (df : List Row) (idxs : List ℕ) : List Row :=
  idxs.filterMap (fun i => df[i]?)

theorem length_iloc (df : List Row) :
    ∀ idxs : List ℕ, (∀ i ∈ idxs, i < df.length) →
      (iloc df idxs).length = idxs.length := by
  intro idxs
  induction idxs with
  | nil => intro _; rfl
  | cons i rest ih =>
    intro hb
    have hi : i < df.length := hb i (List.mem_cons.mpr (Or.inl rfl))
    have hrest := ih (fun j hj => hb j (List.mem_cons.mpr (Or.inr hj)))
    simp only [iloc, List.filterMap_cons, List.getElem?_eq_getElem hi] at *
    simp [hrest]

/-- The row-position pair split_dataset extracts from the first fold: the
segment-aware translation when do_segment_split is set, the plain
stratified row fold otherwise. -/
def splitFoldIndices (df : List Row) (segSplit : Bool)
    (f : List ℕ × List ℕ) : List ℕ × List ℕ :=
  if segSplit then scvFold df f else f

/-- split_dataset (dataset.py lines 206-234): return the two iloc slices of
the table given by the first fold of the chosen cross validator. -/
def split_dataset (df : List Row) (segSplit : Bool)
    (f : List ℕ × List ℕ) : List Row × List Row :=
  (iloc df (splitFoldIndices df segSplit f).1,
   iloc df (splitFoldIndices df segSplit f).2)

/-- Row positions produced for a fold are positions of the dataframe. -/
theorem foldRowIndices_lt (df : List Row) (segs : List ℕ) :
    ∀ i ∈ foldRowIndices df segs, i < df.length := by
  intro i hi
  rcases (mem_foldRowIndices df segs i).mp hi with ⟨p, hp, _, hpi⟩
  have := (enumRows_snd_bound df 0 p hp).2
  omega

/-- Core counting fact for a valid fold of segment positions: the rows
selected for the training segments and those selected for the held-out
segments together account for every row of the table exactly once. -/
theorem foldRowIndices_length_partition (df : List Row)
    (f : List ℕ × List ℕ)
    (hv : ValidFold (uniqueSegments df).length f) :
    (foldRowIndices df (segmentsAt df f.1)).length +
      (foldRowIndices df (segmentsAt df f.2)).length = df.length := by
  obtain ⟨h1, h2, _, _, h5, h6⟩ := hv
  have hA : (segmentsAt df f.1).Nodup := nodup_segmentsAt df f.1 h1
  have hB : (segmentsAt df f.2).Nodup := nodup_segmentsAt df f.2 h2
  have hAB := segmentsAt_disjoint df f.1 f.2 h5
  have hlenA : (foldRowIndices df (segmentsAt df f.1)).length =
      (all_segments df).countP
        (fun p => decide (p.1 ∈ segmentsAt df f.1)) := by
    rw [foldRowIndices, List.length_map, length_locKey _ _ hA]
  have hlenB : (foldRowIndices df (segmentsAt df f.2)).length =
      (all_segments df).countP
        (fun p => decide (p.1 ∈ segmentsAt df f.2)) := by
    rw [foldRowIndices, List.length_map, length_locKey _ _ hB]
  have hexcl : ∀ p : ℕ × ℕ, decide (p.1 ∈ segmentsAt df f.1) = true →
      decide (p.1 ∈ segmentsAt df f.2) = false := by
    intro p hp
    have := hAB p.1 (of_decide_eq_true hp)
    simpa using this
  have hcov : ∀ p ∈ all_segments df,
      decide (p.1 ∈ segmentsAt df f.1) = true ∨
        decide (p.1 ∈ segmentsAt df f.2) = true := by
    intro p hp
    have hmem : p.1 ∈ uniqueSegments df :=
      (mem_uniqueSegments df p.1).mpr (enumRows_fst_mem df 0 p hp)
    rcases List.mem_iff_getElem?.mp hmem with ⟨j, hj⟩
    have hjlt : j < (uniqueSegments df).length := (List.getElem?_eq_some.mp hj).1
    rcases h6 j hjlt with hjf | hjf
    · exact Or.inl (decide_eq_true
        (List.mem_filterMap.mpr ⟨j, hjf, hj⟩))
    · exact Or.inr (decide_eq_true
        (List.mem_filterMap.mpr ⟨j, hjf, hj⟩))
  have := countP_partition _ _ hexcl (all_segments df) hcov
  rw [hlenA, hlenB, this, all_segments, enumRows_length]

/-- Claim C1: for every dataset table and every fold count K accepted at
construction (the wrapped StratifiedKFold generator yields K folds
satisfying its contract), iterating the SegmentCrossValidator yields
exactly K pairs of row-position lists, len(validator) is K, and in every
fold the train row positions are disjoint from the test row positions and
the segment ids underlying the train side are disjoint from those
underlying the test side. -/
theorem segment_cv_folds_spec (df : List Row)
    (folds : List (List ℕ × List ℕ)) (K : ℕ)
    (hv : ValidKFold (uniqueSegments df).length folds)
    (hK : folds.length = K) :
    (scvIter df folds).length = K ∧ scvLen folds = K ∧
    ∀ f ∈ folds,
      (∀ s ∈ segmentsAt df f.1, s ∉ segmentsAt df f.2) ∧
      (∀ i ∈ (scvFold df f).1, i ∉ (scvFold df f).2) := by
  refine ⟨by simp [scvIter, hK], hK, ?_⟩
  intro f hf
  obtain ⟨_, _, _, _, h5, _⟩ := hv f hf
  have hseg := segmentsAt_disjoint df f.1 f.2 h5
  exact ⟨hseg, foldRowIndices_disjoint df _ _ hseg⟩

/-- Witness for C1 on a two-segment table and a complete two-fold base
cross validation. -/
theorem segment_cv_folds_spec_witness :
    ValidKFold (uniqueSegments [(0, false), (0, false), (1, true)]).length
      [([0], [1]), ([1], [0])] ∧
    ([([0], [1]), ([1], [0])] : List (List ℕ × List ℕ)).length = 2 ∧
    ((scvIter [(0, false), (0, false), (1, true)]
        [([0], [1]), ([1], [0])]).length = 2 ∧
      scvLen [([0], [1]), ([1], [0])] = 2 ∧
      ∀ f ∈ ([([0], [1]), ([1], [0])] : List (List ℕ × List ℕ)),
        (∀ s ∈ segmentsAt [(0, false), (0, false), (1, true)] f.1,
          s ∉ segmentsAt [(0, false), (0, false), (1, true)] f.2) ∧
        (∀ i ∈ (scvFold [(0, false), (0, false), (1, true)] f).1,
          i ∉ (scvFold [(0, false), (0, false), (1, true)] f).2)) :=
  ⟨by decide, by decide,
    segment_cv_folds_spec [(0, false), (0, false), (1, true)]
      [([0], [1]), ([1], [0])] 2 (by decide) (by decide)⟩

/-- Claim C2: for every table and valid flag combination, the first-fold
split returned by split_dataset is a partition of the table rows: the two
returned tables are row-disjoint and their row counts sum to the row count
of the original table.  Validity is the contract of the first fold produced
by the wrapped StratifiedKFold generator, over segments when
do_segment_split is set and over rows otherwise. -/
theorem split_dataset_partition (df : List Row) (segSplit : Bool)
    (f : List ℕ × List ℕ)
    (hv : ValidFold
      (if segSplit then (uniqueSegments df).length else df.length) f) :
    (split_dataset df segSplit f).1.length +
      (split_dataset df segSplit f).2.length = df.length ∧
    ∀ i ∈ (splitFoldIndices df segSplit f).1,
      i ∉ (splitFoldIndices df segSplit f).2 := by
  cases segSplit with
  | true =>
    simp only [if_true] at hv
    have hdisj := foldRowIndices_disjoint df _ _
      (segmentsAt_disjoint df f.1 f.2 hv.2.2.2.2.1)
    constructor
    · simp only [split_dataset, splitFoldIndices, if_true, scvFold]
      rw [length_iloc df _ (foldRowIndices_lt df _),
        length_iloc df _ (foldRowIndices_lt df _)]
      exact foldRowIndices_length_partition df f hv
    · simpa only [splitFoldIndices, if_true, scvFold] using hdisj
  | false =>
    simp only [Bool.false_eq_true, if_false] at hv
    obtain ⟨h1, h2, h3, h4, h5, h6⟩ := hv
    have happ : (f.1 ++ f.2).Nodup :=
      List.nodup_append.mpr ⟨h1, h2, fun a ha hb => h5 a ha hb⟩
    have hmem : ∀ a, a ∈ f.1 ++ f.2 ↔ a ∈ List.range df.length := by
      intro a
      rw [List.mem_append, List.mem_range]
      constructor
      · rintro (h | h)
        · exact h3 a h
        · exact h4 a h
      · exact h6 a
    have hperm := (List.perm_ext_iff_of_nodup happ
      (List.nodup_range df.length)).mpr hmem
    have hlen := hperm.length_eq
    rw [List.length_append, List.length_range] at hlen
    constructor
    · simp only [split_dataset, splitFoldIndices, Bool.false_eq_true, if_false]
      rw [length_iloc df _ h3, length_iloc df _ h4]
      exact hlen
    · simpa only [splitFoldIndices, Bool.false_eq_true, if_false] using h5

/-- Witness for C2 on a two-segment table with a segment-level first
fold. -/
theorem split_dataset_partition_witness :
    ValidFold
      (if true then (uniqueSegments [(0, false), (0, false), (1, true)]).length
        else ([(0, false), (0, false), (1, true)] : List Row).length)
      ([0], [1]) ∧
    ((split_dataset [(0, false), (0, false), (1, true)] true ([0], [1])).1.length +
      (split_dataset [(0, false), (0, false), (1, true)] true ([0], [1])).2.length =
        ([(0, false), (0, false), (1, true)] : List Row).length ∧
      ∀ i ∈ (splitFoldIndices [(0, false), (0, false), (1, true)] true
          ([0], [1])).1,
        i ∉ (splitFoldIndices [(0, false), (0, false), (1, true)] true
          ([0], [1])).2) :=
  ⟨by decide,
    split_dataset_partition [(0, false), (0, false), (1, true)] true ([0], [1])
      (by decide)⟩

/-- Lowercase ascii letter class [a-z] of the segment-name pattern. -/
def isLowerCh (c : Char) : Bool := 'a' ≤ c && c ≤ 'z'

/-- Digit class [0-9] of the segment-name pattern. -/
def isDigitCh (c : Char) : Bool := '0' ≤ c && c ≤ '9'

/-- Subject digit class [1-5] of the segment-name pattern. -/
def isSubjectDigit (c : Char) : Bool := '1' ≤ c && c ≤ '5'

/-- The literal chunk _segment_ of the segment-name pattern. -/
def segLit : List Char := ['_', 's', 'e', 'g', 'm', 'e', 'n', 't', '_']

/-- Matcher for the anchored group
([DP][a-z]*_[1-5]_[a-z]*_segment_[0-9]{4}) used by get_segment_name
(fileutils.py line 23), returning the matched group; the trailing .* of the
pattern accepts any remainder.  Backtracking is unnecessary on this
pattern: shortening an [a-z]* run puts a lowercase letter where the
following literal requires an underscore, and the digit classes have fixed
width, so the python regex engine is equivalent to this deterministic
scan. -/
def matchSegmentCore : List Char → Option (List Char)
  | [] => none
  | c :: rest =>
    if c = 'D' ∨ c = 'P' then
      match rest.dropWhile isLowerCh with
      | '_' :: d :: '_' :: r2 =>
        if isSubjectDigit d then
          match r2.dropWhile isLowerCh with
          | '_' :: 's' :: 'e' :: 'g' :: 'm' :: 'e' :: 'n' :: 't' :: '_' :: r3 =>
            match r3 with
            | d1 :: d2 :: d3 :: d4 :: _ =>
              if isDigitCh d1 && isDigitCh d2 && isDigitCh d3 && isDigitCh d4
              then
                some (c :: (rest.takeWhile isLowerCh ++ '_' :: d :: '_' ::
                  (r2.takeWhile isLowerCh ++ segLit ++ [d1, d2, d3, d4])))
              else none
            | _ => none
          | _ => none
        else none
      | _ => none
    else none

/-- os.path.basename on a posix path: the part after the last slash. -/
def basenameCh (l : List Char) : List Char :=
  (l.reverse.takeWhile (fun c => !(c = '/'))).reverse

/-- get_segment_name (fileutils.py lines 17-29), on strings as lists of
characters: when the basename starts with a canonical segment-name group,
return that group with the extension .mat appended; otherwise return the
argument unchanged. -/
def get_segment_name (l : List Char) : List Char :=
  match matchSegmentCore (basenameCh l) with
  | some g => g ++ ['.', 'm', 'a', 't']
  | none => l

theorem takeWhile_append_cons {α : Type} (p : α → Bool) (y : α) (ys : List α)
    (hy : p y = false) :
    ∀ xs : List α, (∀ x ∈ xs, p x = true) →
      (xs ++ y :: ys).takeWhile p = xs := by
  intro xs
  induction xs with
  | nil => intro _; simp [List.takeWhile_cons, hy]
  | cons x xs ih =>
    intro hx
    have h1 : p x = true := hx x (List.mem_cons.mpr (Or.inl rfl))
    have h2 := ih (fun z hz => hx z (List.mem_cons.mpr (Or.inr hz)))
    simp [List.takeWhile_cons, h1, h2]

theorem dropWhile_append_cons {α : Type} (p : α → Bool) (y : α) (ys : List α)
    (hy : p y = false) :
    ∀ xs : List α, (∀ x ∈ xs, p x = true) →
      (xs ++ y :: ys).dropWhile p = y :: ys := by
  intro xs
  induction xs with
  | nil => intro _; simp [List.dropWhile_cons, hy]
  | cons x xs ih =>
    intro hx
    have h1 : p x = true := hx x (List.mem_cons.mpr (Or.inl rfl))
    have h2 := ih (fun z hz => hx z (List.mem_cons.mpr (Or.inr hz)))
    simp [List.dropWhile_cons, h1, h2]

/-- A well-formed group followed by any remainder is matched, and the group
itself is recovered: the computation of matchSegmentCore on such an input. -/
theorem matchSegmentCore_build (c : Char) (a b : List Char)
    (d e1 e2 e3 e4 : Char) (u : List Char)
    (hc : c = 'D' ∨ c = 'P') (ha : ∀ x ∈ a, isLowerCh x = true)
    (hd : isSubjectDigit d = true) (hb : ∀ x ∈ b, isLowerCh x = true)
    (hdig : (isDigitCh e1 && isDigitCh e2 && isDigitCh e3 && isDigitCh e4)
      = true) :
    matchSegmentCore (c :: (a ++ '_' :: d :: '_' ::
        (b ++ '_' :: 's' :: 'e' :: 'g' :: 'm' :: 'e' :: 'n' :: 't' :: '_' ::
          (e1 :: e2 :: e3 :: e4 :: u)))) =
      some (c :: (a ++ '_' :: d :: '_' :: (b ++ segLit ++ [e1, e2, e3, e4]))) := by
  have h1 := dropWhile_append_cons isLowerCh '_'
    (d :: '_' :: (b ++ '_' :: 's' :: 'e' :: 'g' :: 'm' :: 'e' :: 'n' :: 't' :: '_' ::
      (e1 :: e2 :: e3 :: e4 :: u))) (by decide) a ha
  have h2 := takeWhile_append_cons isLowerCh '_'
    (d :: '_' :: (b ++ '_' :: 's' :: 'e' :: 'g' :: 'm' :: 'e' :: 'n' :: 't' :: '_' ::
      (e1 :: e2 :: e3 :: e4 :: u))) (by decide) a ha
  have h3 := dropWhile_append_cons isLowerCh '_'
    ('s' :: 'e' :: 'g' :: 'm' :: 'e' :: 'n' :: 't' :: '_' ::
      (e1 :: e2 :: e3 :: e4 :: u)) (by decide) b hb
  have h4 := takeWhile_append_cons isLowerCh '_'
    ('s' :: 'e' :: 'g' :: 'm' :: 'e' :: 'n' :: 't' :: '_' ::
      (e1 :: e2 :: e3 :: e4 :: u)) (by decide) b hb
  simp only [matchSegmentCore, h1, h2, h3, h4, hd, hdig, if_true]
  rw [if_pos hc]

/-- A matched group contains no slash, and re-matching the group with any
suffix appended returns the very same group. -/
theorem matchSegmentCore_group_extend (c : Char) (a b : List Char)
    (d e1 e2 e3 e4 : Char) (t : List Char)
    (hc : c = 'D' ∨ c = 'P') (ha : ∀ x ∈ a, isLowerCh x = true)
    (hd : isSubjectDigit d = true) (hb : ∀ x ∈ b, isLowerCh x = true)
    (hdig : (isDigitCh e1 && isDigitCh e2 && isDigitCh e3 && isDigitCh e4)
      = true) :
    matchSegmentCore
        ((c :: (a ++ '_' :: d :: '_' :: (b ++ segLit ++ [e1, e2, e3, e4]))) ++ t)
      = some (c :: (a ++ '_' :: d :: '_' :: (b ++ segLit ++ [e1, e2, e3, e4]))) ∧
    ∀ x ∈ c :: (a ++ '_' :: d :: '_' :: (b ++ segLit ++ [e1, e2, e3, e4])),
      x ≠ '/' := by
  simp only [Bool.and_eq_true] at hdig
  obtain ⟨⟨⟨hd1, hd2⟩, hd3⟩, hd4⟩ := hdig
  constructor
  · rw [show (c :: (a ++ '_' :: d :: '_' :: (b ++ segLit ++ [e1, e2, e3, e4]))) ++ t =
        c :: (a ++ '_' :: d :: '_' ::
          (b ++ '_' :: 's' :: 'e' :: 'g' :: 'm' :: 'e' :: 'n' :: 't' :: '_' ::
            (e1 :: e2 :: e3 :: e4 :: t))) from by simp [segLit]]
    exact matchSegmentCore_build c a b d e1 e2 e3 e4 t hc ha hd hb
      (by simp [hd1, hd2, hd3, hd4])
  · refine List.forall_mem_cons.mpr ⟨?_, ?_⟩
    · rcases hc with hc | hc <;> subst hc <;> decide
    · refine List.forall_mem_append.mpr ⟨?_, ?_⟩
      · intro x hx he
        subst he
        exact absurd (ha _ hx) (by decide)
      · refine List.forall_mem_cons.mpr ⟨by decide, ?_⟩
        refine List.forall_mem_cons.mpr ⟨?_, ?_⟩
        · intro he
          subst he
          exact absurd hd (by decide)
        · refine List.forall_mem_cons.mpr ⟨by decide, ?_⟩
          refine List.forall_mem_append.mpr ⟨?_, ?_⟩
          · refine List.forall_mem_append.mpr ⟨?_, ?_⟩
            · intro x hx he
              subst he
              exact absurd (hb _ hx) (by decide)
            · intro x hx
              fin_cases hx <;> decide
          · refine List.forall_mem_cons.mpr ⟨?_, ?_⟩
            · intro he; subst he; exact absurd hd1 (by decide)
            · refine List.forall_mem_cons.mpr ⟨?_, ?_⟩
              · intro he; subst he; exact absurd hd2 (by decide)
              · refine List.forall_mem_cons.mpr ⟨?_, ?_⟩
                · intro he; subst he; exact absurd hd3 (by decide)
                · refine List.forall_mem_cons.mpr ⟨?_, ?_⟩
                  · intro he; subst he; exact absurd hd4 (by decide)
                  · intro x hx; cases hx

/-- Whenever get_segment_name matches a group g out of some name, matching
g itself (with any extension appended) yields g again, and g contains no
path separator. -/
theorem matchSegmentCore_extend (l g : List Char)
    (h : matchSegmentCore l = some g) (t : List Char) :
    matchSegmentCore (g ++ t) = some g ∧ ∀ x ∈ g, x ≠ '/' := by
  cases l with
  | nil => exact absurd h (by simp [matchSegmentCore])
  | cons c rest =>
    simp only [matchSegmentCore] at h
    split at h
    case isFalse => exact Option.noConfusion h
    case isTrue hc =>
      split at h
      case h_2 => exact Option.noConfusion h
      case h_1 =>
        split at h
        case isFalse => exact Option.noConfusion h
        case isTrue hd =>
          split at h
          case h_2 => exact Option.noConfusion h
          case h_1 =>
            split at h
            case h_2 => exact Option.noConfusion h
            case h_1 =>
              split at h
              case isFalse => exact Option.noConfusion h
              case isTrue hdig =>
                injection h with hg
                subst hg
                exact matchSegmentCore_group_extend _ _ _ _ _ _ _ _ t hc
                  (fun x hx => List.mem_takeWhile_imp hx) hd
                  (fun x hx => List.mem_takeWhile_imp hx) hdig

/-- basename is the identity on names without a path separator. -/
theorem basenameCh_eq_self (l : List Char) (h : ∀ x ∈ l, x ≠ '/') :
    basenameCh l = l := by
  unfold basenameCh
  rw [List.takeWhile_eq_self_iff.mpr
    (fun x hx => by simp [h x (List.mem_reverse.mp hx)]), List.reverse_reverse]

/-- Claim C10: canonical segment naming is idempotent: for every string
name, get_segment_name (get_segment_name name) = get_segment_name name, so
a canonical segment identifier maps to itself and re-normalizing an
already-normalized table leaves its segment ids unchanged. -/
theorem get_segment_name_idempotent (l : List Char) :
    get_segment_name (get_segment_name l) = get_segment_name l := by
  cases hm : matchSegmentCore (basenameCh l) with
  | none =>
    have hgl : get_segment_name l = l := by rw [get_segment_name, hm]
    rw [hgl]
    exact hgl
  | some g =>
    have hgl : get_segment_name l = g ++ ['.', 'm', 'a', 't'] := by
      rw [get_segment_name, hm]
    obtain ⟨hmatch, hslash⟩ :=
      matchSegmentCore_extend _ _ hm ['.', 'm', 'a', 't']
    have hbase : basenameCh (g ++ ['.', 'm', 'a', 't']) =
        g ++ ['.', 'm', 'a', 't'] := by
      apply basenameCh_eq_self
      intro x hx
      rcases List.mem_append.mp hx with hx | hx
      · exact hslash x hx
      · fin_cases hx <;> decide
    rw [hgl, get_segment_name, hbase, hmatch]
